import Mathlib

/-!
# Verification of the kalibrate-hydrasdr signal-processing core

A shallow embedding, in Lean 4, of the parts of kalibrate-hydrasdr that the
specification's claims are about:

* `circular_buffer` (circular_buffer.cc) — the "magic ring" byte-cursor
  buffer, modelled at byte granularity with an explicit physical memory of
  `bufSize` bytes (the double virtual mapping makes every access at byte
  `x` an access at physical byte `x % bufSize`, which is how the model
  reads and writes memory);
* `fcch_detector` (fcch_detector.cc) — the NLMS adaptive filter step
  `next_norm_error`, the edge state machine `low_to_high`, and the `scan`
  driver loop.  Machine floats are embedded as exact rationals `ℚ`; complex
  samples as pairs of rationals.  The FFT tone estimator `freq_detect`
  (transcendental: FFT twiddle factors, sinc interpolation) is kept as an
  oracle parameter `fd : ℕ → ℕ → ℚ × ℚ` giving, for a window described by
  its start offset and length in the scanned buffer, the pair
  (detected frequency, peak-to-mean ratio) — exactly the data `scan`
  consumes from it;
* the statistics of `offset_detect` (offset.cc) and `c0_detect`
  (c0_detect.cc) together with `sort` / `avg` from util.cc.

Unsigned C arithmetic is modelled on `ℕ`; the cursor subtractions `m_w - m_r`
are truncated subtractions, faithful on the reachable states (where `r ≤ w`
is proved to hold).
-/

namespace Kal

/-! ## Byte-level model of `circular_buffer` (circular_buffer.cc) -/

/-- `(raw + page - 1) & ~(page - 1)`: round `raw` up to the next multiple of
the page size (the C source uses the bit-mask form, which agrees with this
for the power-of-two page sizes the OS reports). -/
def roundUp (raw page : ℕ) : ℕ := ((raw + page - 1) / page) * page

/-- State of a `circular_buffer`: item size and (page-rounded) byte size as
set up by the constructor, the overwrite policy, the two byte cursors
`m_r`/`m_w`, and the physical backing memory, a total map from byte index
to byte value (only indices `< bufSize` are ever used, via `% bufSize`). -/
structure CBuf (β : Type) where
  itemSize : ℕ
  bufSize : ℕ
  overwrite : Bool
  r : ℕ
  w : ℕ
  mem : ℕ → β

/-- The constructor: `m_buf_size = roundUp (item_size * buf_len) page`,
`m_r = m_w = 0`.  `b0` is the (irrelevant) initial content of memory. -/
def CBuf.init (β : Type) (bufLen itemSize : ℕ) (overwrite : Bool) (page : ℕ)
    (b0 : β) : CBuf β :=
  ⟨itemSize, roundUp (itemSize * bufLen) page, overwrite, 0, 0, fun _ => b0⟩

/-- `capacity()` / `buf_len()`: `m_buf_len = m_buf_size / m_item_size`. -/
def CBuf.capacity {β : Type} (cb : CBuf β) : ℕ := cb.bufSize / cb.itemSize

/-- `data_available()`: `(m_w - m_r) / m_item_size`. -/
def CBuf.dataAvailable {β : Type} (cb : CBuf β) : ℕ :=
  (cb.w - cb.r) / cb.itemSize

/-- `space_available()`: `(m_buf_size - (m_w - m_r)) / m_item_size`. -/
def CBuf.spaceAvailable {β : Type} (cb : CBuf β) : ℕ :=
  (cb.bufSize - (cb.w - cb.r)) / cb.itemSize

/-- The cursor normalisation run at the end of `write`, `read` and `purge`:
when both cursors are `≥ m_buf_size`, both drop by `m_buf_size`. -/
def CBuf.norm {β : Type} (cb : CBuf β) : CBuf β :=
  if cb.bufSize ≤ cb.r ∧ cb.bufSize ≤ cb.w then
    { cb with r := cb.r - cb.bufSize, w := cb.w - cb.bufSize }
  else cb

/-- `memcpy` into the double mapping: writing a byte list starting at
virtual offset `off` lands each byte at physical index `(off + i) % S`. -/
def memWrite {β : Type} (S : ℕ) (mem : ℕ → β) (off : ℕ) : List β → (ℕ → β)
  | [] => mem
  | b :: bs => memWrite S (Function.update mem (off % S) b) (off + 1) bs

/-- `write(s, len)`.  An item is a `List β` of `itemSize` bytes; `data` is
the source array `s` of `len` items.  Mirrors the C: cap at the free item
count unless overwriting, `memcpy` at `m_w % m_buf_size`, advance `m_w`,
overwrite-advance `m_r`, normalise.  Returns the updated buffer and
`to_write`. -/
def CBuf.write {β : Type} (cb : CBuf β) (data : List (List β)) :
    CBuf β × ℕ :=
  let len := data.length
  let bytesUsed := cb.w - cb.r
  let bytesFree := cb.bufSize - bytesUsed
  let itemsFree := bytesFree / cb.itemSize
  let toWrite := if ¬cb.overwrite ∧ itemsFree < len then itemsFree else len
  let cb1 :=
    if 0 < toWrite then
      { cb with
        mem := memWrite cb.bufSize cb.mem (cb.w % cb.bufSize)
          ((data.take toWrite).flatten),
        w := cb.w + toWrite * cb.itemSize }
    else cb
  let cb2 :=
    if cb1.overwrite ∧ cb1.bufSize < cb1.w - cb1.r then
      { cb1 with r := cb1.w - cb1.bufSize }
    else cb1
  (cb2.norm, toWrite)

/-- `read(s, len)`: copy out `min len items_avail` items from virtual offset
`m_r % m_buf_size`, advance `m_r`, normalise.  Returns the updated buffer
and the items read. -/
def CBuf.read {β : Type} (cb : CBuf β) (len : ℕ) :
    CBuf β × List (List β) :=
  let itemsAvail := (cb.w - cb.r) / cb.itemSize
  let toRead := min len itemsAvail
  let out := (List.range toRead).map fun i =>
    (List.range cb.itemSize).map fun j =>
      cb.mem ((cb.r % cb.bufSize + (i * cb.itemSize + j)) % cb.bufSize)
  let cb1 :=
    if 0 < toRead then { cb with r := cb.r + toRead * cb.itemSize } else cb
  (cb1.norm, out)

/-- `purge(len)`: drop `min len items_avail` items from the front. -/
def CBuf.purge {β : Type} (cb : CBuf β) (len : ℕ) : CBuf β × ℕ :=
  let itemsAvail := (cb.w - cb.r) / cb.itemSize
  let toPurge := min len itemsAvail
  (({ cb with r := cb.r + toPurge * cb.itemSize }).norm, toPurge)

/-- `flush()`: `m_r = m_w = 0`. -/
def CBuf.flush {β : Type} (cb : CBuf β) : CBuf β :=
  { cb with r := 0, w := 0 }

/-- One mutating operation on a `circular_buffer`. -/
inductive CBOp (β : Type) where
  | write (data : List (List β))
  | read (len : ℕ)
  | purge (len : ℕ)
  | flush

/-- Apply one operation (discarding the returned count / items). -/
def CBuf.apply {β : Type} (cb : CBuf β) : CBOp β → CBuf β
  | .write d => (cb.write d).1
  | .read n => (cb.read n).1
  | .purge n => (cb.purge n).1
  | .flush => cb.flush

/-- Run a sequence of operations from a given state. -/
def CBuf.run {β : Type} (cb : CBuf β) (ops : List (CBOp β)) : CBuf β :=
  ops.foldl CBuf.apply cb

/-- The cursor invariant maintained by every operation: `r ≤ w`, the live
byte span fits in the physical buffer, and the span is congruent mod the
item size either to `0` (ordinary traffic) or to `bufSize` (just after an
overwrite clamp `m_r = m_w - m_buf_size`). -/
def CBuf.Inv {β : Type} (cb : CBuf β) : Prop :=
  cb.r ≤ cb.w ∧ cb.w - cb.r ≤ cb.bufSize ∧
    ((cb.w - cb.r) % cb.itemSize = 0 ∨
      (cb.w - cb.r) % cb.itemSize = cb.bufSize % cb.itemSize)

theorem CBuf.norm_fields {β : Type} (cb : CBuf β) :
    (cb.norm.itemSize = cb.itemSize ∧ cb.norm.bufSize = cb.bufSize ∧
      cb.norm.overwrite = cb.overwrite) ∧
    cb.norm.w - cb.norm.r = cb.w - cb.r ∧
    (cb.r ≤ cb.w → cb.norm.r ≤ cb.norm.w) := by
  unfold CBuf.norm
  split
  · next h => exact ⟨⟨rfl, rfl, rfl⟩, by dsimp only; omega, by dsimp only; omega⟩
  · exact ⟨⟨rfl, rfl, rfl⟩, rfl, fun h => h⟩

/-- Floor-division bookkeeping behind `data_available + space_available =
capacity`: when the live span `a` is congruent mod the item size either to
`0` or to the byte size `S`, the two floor divisions add up exactly. -/
theorem div_add_sub_div (S a k : ℕ) (hk : 0 < k) (ha : a ≤ S)
    (h : a % k = 0 ∨ a % k = S % k) : a / k + (S - a) / k = S / k := by
  rcases h with h0 | h1
  · obtain ⟨q, rfl⟩ := Nat.dvd_of_mod_eq_zero h0
    have hq : q ≤ S / k :=
      (Nat.le_div_iff_mul_le hk).mpr (by rw [Nat.mul_comm]; exact ha)
    rw [Nat.mul_div_cancel_left q hk, Nat.sub_mul_div S k q ha]
    omega
  · have hda : k * (a / k) + a % k = a := Nat.div_add_mod a k
    have hdS : k * (S / k) + S % k = S := Nat.div_add_mod S k
    have hqa : a / k ≤ S / k := Nat.div_le_div_right ha
    have hsub : S - a = k * (S / k - a / k) := by
      rw [Nat.mul_sub]
      omega
    rw [hsub, Nat.mul_div_cancel_left _ hk]
    omega

theorem CBuf.norm_inv {β : Type} {cb : CBuf β} (h : cb.Inv) : cb.norm.Inv := by
  obtain ⟨⟨hi, hb, _⟩, hspan, hrw⟩ := cb.norm_fields
  exact ⟨hrw h.1, by rw [hspan, hb]; exact h.2.1, by rw [hspan, hb, hi]; exact h.2.2⟩

/-- `write` preserves the cursor invariant (and the static fields). -/
theorem CBuf.write_inv {β : Type} {cb : CBuf β} (h : cb.Inv)
    (data : List (List β)) :
    (cb.write data).1.Inv ∧ (cb.write data).1.itemSize = cb.itemSize ∧
      (cb.write data).1.bufSize = cb.bufSize ∧
      (cb.write data).1.overwrite = cb.overwrite := by
  obtain ⟨hrw, hspan, hmod⟩ := h
  have hfree : (cb.bufSize - (cb.w - cb.r)) / cb.itemSize * cb.itemSize ≤
      cb.bufSize - (cb.w - cb.r) := Nat.div_mul_le_self _ _
  simp only [CBuf.write]
  set t := if ¬cb.overwrite ∧
      (cb.bufSize - (cb.w - cb.r)) / cb.itemSize < data.length then
      (cb.bufSize - (cb.w - cb.r)) / cb.itemSize else data.length with ht
  -- facts about `t` in the non-overwrite case
  have hcap : cb.overwrite = false →
      t * cb.itemSize ≤ cb.bufSize - (cb.w - cb.r) := by
    intro hov
    rw [ht]
    split
    · exact hfree
    · next hcond =>
      rcases Decidable.em
          ((cb.bufSize - (cb.w - cb.r)) / cb.itemSize < data.length) with hlt | hge
      · exact absurd ⟨by simp [hov], hlt⟩ hcond
      · calc data.length * cb.itemSize
            ≤ (cb.bufSize - (cb.w - cb.r)) / cb.itemSize * cb.itemSize :=
              Nat.mul_le_mul_right _ (by omega)
          _ ≤ cb.bufSize - (cb.w - cb.r) := hfree
  -- the state after the memcpy / `m_w` advance
  set cb1 := if 0 < t then
      { cb with
        mem := memWrite cb.bufSize cb.mem (cb.w % cb.bufSize)
          (data.take t).flatten,
        w := cb.w + t * cb.itemSize }
    else cb with hcb1
  have hcb1r : cb1.r = cb.r := by rw [hcb1]; split <;> rfl
  have hcb1w : cb1.w = cb.w + t * cb.itemSize ∨ (t = 0 ∧ cb1.w = cb.w) := by
    rw [hcb1]; split <;> [exact Or.inl rfl; omega]
  have hcb1f : cb1.itemSize = cb.itemSize ∧ cb1.bufSize = cb.bufSize ∧
      cb1.overwrite = cb.overwrite := by rw [hcb1]; split <;> exact ⟨rfl, rfl, rfl⟩
  -- the state after the overwrite clamp
  set cb2 := if cb1.overwrite ∧ cb1.bufSize < cb1.w - cb1.r then
      { cb1 with r := cb1.w - cb1.bufSize } else cb1 with hcb2
  have hcb2f : cb2.itemSize = cb1.itemSize ∧ cb2.bufSize = cb1.bufSize ∧
      cb2.overwrite = cb1.overwrite ∧ cb2.w = cb1.w := by
    rw [hcb2]; split <;> exact ⟨rfl, rfl, rfl, rfl⟩
  obtain ⟨⟨hnf1, hnf2, hnf3⟩, _, _⟩ := cb2.norm_fields
  refine ⟨CBuf.norm_inv ?_, ?_, ?_, ?_⟩
  · -- `Inv cb2`
    rw [hcb2]
    split
    · next hclamp =>
      -- overwrite clamp: the span becomes exactly `bufSize`
      refine ⟨by dsimp only; omega, ?_, ?_⟩
      · dsimp only
        omega
      · dsimp only
        have : cb1.w - (cb1.w - cb1.bufSize) = cb1.bufSize := by omega
        rw [this, hcb1f.1, hcb1f.2.1]
        exact Or.inr rfl
    · next hclamp =>
      -- no clamp: the span grew by a multiple of the item size and fits
      refine ⟨?_, ?_, ?_⟩
      · rcases hcb1w with hw | ⟨_, hw⟩ <;> rw [hw, hcb1r] <;> omega
      · rcases Decidable.em (cb1.overwrite = true) with hov | hov
        · rcases Decidable.em (cb1.bufSize < cb1.w - cb1.r) with hlt | hle
          · exact absurd ⟨hov, hlt⟩ hclamp
          · omega
        · have hovf : cb.overwrite = false := by
            have h22 := hcb1f.2.2
            cases hcase : cb1.overwrite
            · rw [hcase] at h22; exact h22.symm
            · exact absurd hcase hov
          have := hcap hovf
          rcases hcb1w with hw | ⟨_, hw⟩ <;>
            rw [hw, hcb1r, hcb1f.2.1] <;> omega
      · rcases hcb1w with hw | ⟨ht0, hw⟩
        · rw [hw, hcb1r, hcb1f.1, hcb1f.2.1]
          have : cb.w + t * cb.itemSize - cb.r =
              (cb.w - cb.r) + t * cb.itemSize := by omega
          rw [this, Nat.add_mul_mod_self_right]
          exact hmod
        · rw [hw, hcb1r, hcb1f.1, hcb1f.2.1]
          exact hmod
  · rw [hnf1, hcb2f.1, hcb1f.1]
  · rw [hnf2, hcb2f.2.1, hcb1f.2.1]
  · rw [hnf3, hcb2f.2.2.1, hcb1f.2.2]

/-- A front-cursor advance by `min len items_avail` items (the shared shape
of `read` and `purge`) preserves the invariant. -/
theorem CBuf.advance_inv {β : Type} {cb : CBuf β} (h : cb.Inv) (len : ℕ) :
    ({ cb with
        r := cb.r + min len ((cb.w - cb.r) / cb.itemSize) * cb.itemSize
      : CBuf β }).norm.Inv := by
  obtain ⟨hrw, hspan, hmod⟩ := h
  apply CBuf.norm_inv
  set m := min len ((cb.w - cb.r) / cb.itemSize) with hm
  have hmk : m * cb.itemSize ≤ cb.w - cb.r := by
    calc m * cb.itemSize ≤ (cb.w - cb.r) / cb.itemSize * cb.itemSize :=
          Nat.mul_le_mul_right _ (by rw [hm]; exact Nat.min_le_right _ _)
      _ ≤ cb.w - cb.r := Nat.div_mul_le_self _ _
  refine ⟨by dsimp only; omega, by dsimp only; omega, ?_⟩
  dsimp only
  have hsub : cb.w - (cb.r + m * cb.itemSize) =
      (cb.w - cb.r) - cb.itemSize * m := by
    rw [Nat.mul_comm cb.itemSize m]; omega
  rw [hsub, Nat.sub_mul_mod (by rw [Nat.mul_comm]; exact hmk)]
  exact hmod

theorem CBuf.read_inv {β : Type} {cb : CBuf β} (h : cb.Inv) (len : ℕ) :
    (cb.read len).1.Inv ∧ (cb.read len).1.itemSize = cb.itemSize ∧
      (cb.read len).1.bufSize = cb.bufSize ∧
      (cb.read len).1.overwrite = cb.overwrite := by
  have hadv := CBuf.advance_inv h len
  simp only [CBuf.read]
  split
  · exact ⟨hadv, ((CBuf.norm_fields _).1).1, ((CBuf.norm_fields _).1).2.1,
      ((CBuf.norm_fields _).1).2.2⟩
  · next h0 =>
    rw [Nat.not_lt, Nat.le_zero] at h0
    rw [h0, Nat.zero_mul, Nat.add_zero] at hadv
    exact ⟨hadv, ((CBuf.norm_fields _).1).1, ((CBuf.norm_fields _).1).2.1,
      ((CBuf.norm_fields _).1).2.2⟩

theorem CBuf.purge_inv {β : Type} {cb : CBuf β} (h : cb.Inv) (len : ℕ) :
    (cb.purge len).1.Inv ∧ (cb.purge len).1.itemSize = cb.itemSize ∧
      (cb.purge len).1.bufSize = cb.bufSize ∧
      (cb.purge len).1.overwrite = cb.overwrite := by
  exact ⟨CBuf.advance_inv h len, ((CBuf.norm_fields _).1).1,
    ((CBuf.norm_fields _).1).2.1, ((CBuf.norm_fields _).1).2.2⟩

theorem CBuf.flush_inv {β : Type} {cb : CBuf β} :
    cb.flush.Inv ∧ cb.flush.itemSize = cb.itemSize ∧
      cb.flush.bufSize = cb.bufSize ∧ cb.flush.overwrite = cb.overwrite :=
  ⟨⟨Nat.le_refl 0, by simp [CBuf.flush], Or.inl (by simp [CBuf.flush])⟩,
    rfl, rfl, rfl⟩

/-- Every operation preserves the invariant and the static fields. -/
theorem CBuf.apply_inv {β : Type} {cb : CBuf β} (h : cb.Inv) (op : CBOp β) :
    (cb.apply op).Inv ∧ (cb.apply op).itemSize = cb.itemSize ∧
      (cb.apply op).bufSize = cb.bufSize ∧
      (cb.apply op).overwrite = cb.overwrite := by
  cases op with
  | write d => exact CBuf.write_inv h d
  | read n => exact CBuf.read_inv h n
  | purge n => exact CBuf.purge_inv h n
  | flush => exact CBuf.flush_inv

/-- A run of operations preserves the invariant and the static fields. -/
theorem CBuf.run_inv {β : Type} {cb : CBuf β} (h : cb.Inv)
    (ops : List (CBOp β)) :
    (cb.run ops).Inv ∧ (cb.run ops).itemSize = cb.itemSize ∧
      (cb.run ops).bufSize = cb.bufSize ∧
      (cb.run ops).overwrite = cb.overwrite := by
  induction ops generalizing cb with
  | nil => exact ⟨h, rfl, rfl, rfl⟩
  | cons op ops ih =>
    have hstep := CBuf.apply_inv h op
    have htail := ih hstep.1
    exact ⟨htail.1, htail.2.1.trans hstep.2.1, htail.2.2.1.trans hstep.2.2.1,
      htail.2.2.2.trans hstep.2.2.2⟩

theorem CBuf.init_inv {β : Type} (bufLen itemSize : ℕ) (ov : Bool)
    (page : ℕ) (b0 : β) : (CBuf.init β bufLen itemSize ov page b0).Inv :=
  ⟨Nat.le_refl 0, by simp [CBuf.init], Or.inl (by simp [CBuf.init])⟩

set_option maxRecDepth 20000 in
/-- C3 counterexample: the claimed invariant `w − r ≤ capacity·item_size`
fails on a constructible buffer.  With `item_size = 3`, `buf_len = 100` and
a 4096-byte page, the constructor rounds `m_buf_size` up to 4096 and sets
`m_buf_len = 4096 / 3 = 1365`, so `capacity·item_size = 4095 < 4096`.  One
overwrite-mode `write` of 1400 items drives the clamp `m_r = m_w −
m_buf_size`, leaving `w − r = 4096`. -/
theorem C3_counterexample :
    ((CBuf.init ℕ 100 3 true 4096 0).run
        [CBOp.write (List.replicate 1400 (List.replicate 3 0))]).capacity *
        ((CBuf.init ℕ 100 3 true 4096 0).run
          [CBOp.write (List.replicate 1400 (List.replicate 3 0))]).itemSize <
      ((CBuf.init ℕ 100 3 true 4096 0).run
          [CBOp.write (List.replicate 1400 (List.replicate 3 0))]).w -
        ((CBuf.init ℕ 100 3 true 4096 0).run
          [CBOp.write (List.replicate 1400 (List.replicate 3 0))]).r := by
  decide

/-- C3 (amended): after any sequence of `write`/`read`/`purge`/`flush`
from construction, `data_available() + space_available() = capacity()` and
`w ≥ r` hold, the live span is bounded by the (page-rounded) byte size
`m_buf_size`, and whenever the item size divides `m_buf_size` — true for
every buffer this program constructs (item sizes 4 and 8, page-aligned
sizes) — the claimed bound `w − r ≤ capacity·item_size` holds as well. -/
theorem C3_invariants (β : Type) (bufLen itemSize : ℕ) (ov : Bool)
    (page : ℕ) (b0 : β) (ops : List (CBOp β)) (hk : 0 < itemSize) :
    ((CBuf.init β bufLen itemSize ov page b0).run ops).dataAvailable +
        ((CBuf.init β bufLen itemSize ov page b0).run ops).spaceAvailable =
        ((CBuf.init β bufLen itemSize ov page b0).run ops).capacity ∧
      ((CBuf.init β bufLen itemSize ov page b0).run ops).r ≤
        ((CBuf.init β bufLen itemSize ov page b0).run ops).w ∧
      ((CBuf.init β bufLen itemSize ov page b0).run ops).w -
          ((CBuf.init β bufLen itemSize ov page b0).run ops).r ≤
        ((CBuf.init β bufLen itemSize ov page b0).run ops).bufSize ∧
      (((CBuf.init β bufLen itemSize ov page b0).run ops).itemSize ∣
          ((CBuf.init β bufLen itemSize ov page b0).run ops).bufSize →
        ((CBuf.init β bufLen itemSize ov page b0).run ops).w -
            ((CBuf.init β bufLen itemSize ov page b0).run ops).r ≤
          ((CBuf.init β bufLen itemSize ov page b0).run ops).capacity *
            ((CBuf.init β bufLen itemSize ov page b0).run ops).itemSize) := by
  obtain ⟨⟨hrw, hspan, hmod⟩, hi, hb, _⟩ :=
    CBuf.run_inv (CBuf.init_inv bufLen itemSize ov page b0) ops
  set cb := (CBuf.init β bufLen itemSize ov page b0).run ops with hcb
  have hk' : 0 < cb.itemSize := by rw [hi]; exact hk
  refine ⟨?_, hrw, hspan, ?_⟩
  · exact div_add_sub_div cb.bufSize (cb.w - cb.r) cb.itemSize hk' hspan hmod
  · intro hdvd
    have hz : cb.bufSize % cb.itemSize = 0 := by
      obtain ⟨c, hc⟩ := hdvd
      rw [hc]
      exact Nat.mul_mod_right _ _
    have hmod0 : (cb.w - cb.r) % cb.itemSize = 0 := by
      rcases hmod with h | h
      · exact h
      · rw [h, hz]
    obtain ⟨q, hq⟩ := Nat.dvd_of_mod_eq_zero hmod0
    have hql : q ≤ cb.capacity := by
      have : cb.itemSize * q ≤ cb.itemSize * cb.capacity := by
        have hcap : cb.itemSize * cb.capacity = cb.bufSize :=
          Nat.mul_div_cancel' hdvd
        omega
      exact Nat.le_of_mul_le_mul_left this hk'
    calc cb.w - cb.r = cb.itemSize * q := hq
      _ ≤ cb.itemSize * cb.capacity := Nat.mul_le_mul_left _ hql
      _ = cb.capacity * cb.itemSize := Nat.mul_comm _ _

/-- Witness for `C3_invariants` at a concrete buffer and operation list
(a float-ring shape: item size 4, 8 items, one full write/read/purge/flush
cycle). -/
theorem C3_invariants_witness :
    (0 : ℕ) < 4 ∧
      (((CBuf.init ℕ 8 4 false 4096 0).run
          [CBOp.write (List.replicate 5 (List.replicate 4 7)), CBOp.read 2,
            CBOp.purge 1, CBOp.flush]).dataAvailable +
          ((CBuf.init ℕ 8 4 false 4096 0).run
            [CBOp.write (List.replicate 5 (List.replicate 4 7)), CBOp.read 2,
              CBOp.purge 1, CBOp.flush]).spaceAvailable =
          ((CBuf.init ℕ 8 4 false 4096 0).run
            [CBOp.write (List.replicate 5 (List.replicate 4 7)), CBOp.read 2,
              CBOp.purge 1, CBOp.flush]).capacity ∧
        ((CBuf.init ℕ 8 4 false 4096 0).run
            [CBOp.write (List.replicate 5 (List.replicate 4 7)), CBOp.read 2,
              CBOp.purge 1, CBOp.flush]).r ≤
          ((CBuf.init ℕ 8 4 false 4096 0).run
            [CBOp.write (List.replicate 5 (List.replicate 4 7)), CBOp.read 2,
              CBOp.purge 1, CBOp.flush]).w ∧
        ((CBuf.init ℕ 8 4 false 4096 0).run
              [CBOp.write (List.replicate 5 (List.replicate 4 7)),
                CBOp.read 2, CBOp.purge 1, CBOp.flush]).w -
            ((CBuf.init ℕ 8 4 false 4096 0).run
              [CBOp.write (List.replicate 5 (List.replicate 4 7)),
                CBOp.read 2, CBOp.purge 1, CBOp.flush]).r ≤
          ((CBuf.init ℕ 8 4 false 4096 0).run
            [CBOp.write (List.replicate 5 (List.replicate 4 7)), CBOp.read 2,
              CBOp.purge 1, CBOp.flush]).bufSize ∧
        (((CBuf.init ℕ 8 4 false 4096 0).run
              [CBOp.write (List.replicate 5 (List.replicate 4 7)),
                CBOp.read 2, CBOp.purge 1, CBOp.flush]).itemSize ∣
            ((CBuf.init ℕ 8 4 false 4096 0).run
              [CBOp.write (List.replicate 5 (List.replicate 4 7)),
                CBOp.read 2, CBOp.purge 1, CBOp.flush]).bufSize →
          ((CBuf.init ℕ 8 4 false 4096 0).run
                [CBOp.write (List.replicate 5 (List.replicate 4 7)),
                  CBOp.read 2, CBOp.purge 1, CBOp.flush]).w -
              ((CBuf.init ℕ 8 4 false 4096 0).run
                [CBOp.write (List.replicate 5 (List.replicate 4 7)),
                  CBOp.read 2, CBOp.purge 1, CBOp.flush]).r ≤
            ((CBuf.init ℕ 8 4 false 4096 0).run
                [CBOp.write (List.replicate 5 (List.replicate 4 7)),
                  CBOp.read 2, CBOp.purge 1, CBOp.flush]).capacity *
              ((CBuf.init ℕ 8 4 false 4096 0).run
                [CBOp.write (List.replicate 5 (List.replicate 4 7)),
                  CBOp.read 2, CBOp.purge 1, CBOp.flush]).itemSize)) :=
  ⟨by decide,
    C3_invariants ℕ 8 4 false 4096 0
      [CBOp.write (List.replicate 5 (List.replicate 4 7)), CBOp.read 2,
        CBOp.purge 1, CBOp.flush] (by decide)⟩

/-! ### Memory lemmas for the write-then-read round trip (C4) -/

theorem memWrite_untouched {β : Type} (S : ℕ) (bs : List β) (mem : ℕ → β)
    (off x : ℕ) (h : ∀ u, u < bs.length → (off + u) % S ≠ x) :
    memWrite S mem off bs x = mem x := by
  induction bs generalizing mem off with
  | nil => rfl
  | cons b bs ih =>
    show memWrite S (Function.update mem (off % S) b) (off + 1) bs x = mem x
    have hx0 : x ≠ off % S := fun hx =>
      h 0 (by simp) (by rw [Nat.add_zero]; exact hx.symm)
    have hrest : ∀ u, u < bs.length → (off + 1 + u) % S ≠ x := by
      intro u hu
      have h1u := h (1 + u) (by simp only [List.length_cons]; omega)
      rw [← Nat.add_assoc] at h1u
      exact h1u
    rw [ih _ _ hrest, Function.update_noteq hx0]

theorem memWrite_get {β : Type} (S : ℕ) (bs : List β) (mem : ℕ → β)
    (off : ℕ) (hS : bs.length ≤ S) (t : ℕ) (ht : t < bs.length) :
    memWrite S mem off bs ((off + t) % S) = bs.get ⟨t, ht⟩ := by
  induction bs generalizing mem off t with
  | nil => exact absurd ht (by simp)
  | cons b bs ih =>
    show memWrite S (Function.update mem (off % S) b) (off + 1) bs
        ((off + t) % S) = _
    cases t with
    | zero =>
      rw [memWrite_untouched S bs _ (off + 1) _ fun u hu heq => ?_]
      · rw [Nat.add_zero, Function.update_same]
        rfl
      · -- the later writes land at distinct physical positions
        have hle : off ≤ off + 1 + u := by omega
        have hdvd : S ∣ off + 1 + u - off :=
          (Nat.modEq_iff_dvd' hle).mp (by
            rw [Nat.add_zero] at heq
            exact heq.symm)
        have hpos : 0 < off + 1 + u - off := by omega
        have := Nat.le_of_dvd hpos hdvd
        simp only [List.length_cons] at hS
        omega
    | succ u =>
      have : off + (u + 1) = (off + 1) + u := by omega
      rw [this, ih _ _ (by simp at hS; omega) u (by simpa using ht)]
      rfl

theorem memWrite_append {β : Type} (S : ℕ) (as bs : List β) (mem : ℕ → β)
    (off : ℕ) :
    memWrite S mem off (as ++ bs) =
      memWrite S (memWrite S mem off as) (off + as.length) bs := by
  induction as generalizing mem off with
  | nil => simp [memWrite]
  | cons a as ih =>
    show memWrite S (Function.update mem (off % S) a) (off + 1) (as ++ bs) = _
    rw [ih]
    have : off + 1 + as.length = off + (as.length + 1) := by omega
    rw [this]
    rfl

theorem flatten_length_const {β : Type} (k : ℕ) (data : List (List β))
    (h : ∀ x ∈ data, x.length = k) : data.flatten.length = data.length * k := by
  induction data with
  | nil => simp
  | cons x xs ih =>
    simp only [List.flatten_cons, List.length_append, List.length_cons]
    rw [h x (by simp), ih fun y hy => h y (by simp [hy])]
    ring

/-- Reading back `data.length` chunks of `k` bytes from the position a
`memWrite` of `data.flatten` wrote them to recovers `data`. -/
theorem memWrite_read_chunks {β : Type} (S k : ℕ) (data : List (List β))
    (mem : ℕ → β) (off : ℕ) (hitems : ∀ x ∈ data, x.length = k)
    (hfit : data.length * k ≤ S) :
    (List.range data.length).map (fun i =>
        (List.range k).map fun j =>
          memWrite S mem off data.flatten ((off + (i * k + j)) % S)) =
      data := by
  induction data generalizing mem off with
  | nil => simp
  | cons x xs ih =>
    have hx : x.length = k := hitems x (by simp)
    have hxs : ∀ y ∈ xs, y.length = k := fun y hy => hitems y (by simp [hy])
    have hexp : (xs.length + 1) * k = xs.length * k + k := by ring
    have hfit' : xs.length * k ≤ S := by
      simp only [List.length_cons] at hfit
      omega
    have hkS : k ≤ S := by
      simp only [List.length_cons] at hfit
      omega
    simp only [List.length_cons, List.flatten_cons]
    rw [memWrite_append, hx, List.range_succ_eq_map, List.map_cons,
      List.map_map]
    have hx0 : (List.range k).map (fun j =>
        memWrite S (memWrite S mem off x) (off + k) xs.flatten
          ((off + (0 * k + j)) % S)) = x := by
      apply List.ext_get
      · simp [hx]
      · intro j h1 h2
        simp only [List.get_map, List.get_range]
        have hj : j < k := by
          simp only [List.length_map, List.length_range] at h1
          exact h1
        rw [Nat.zero_mul, Nat.zero_add]
        rw [memWrite_untouched S xs.flatten _ (off + k) _ fun u hu heq => ?_]
        · exact memWrite_get S x mem off (by omega) j (by omega)
        · have hle : off + j ≤ off + k + u := by omega
          have hdvd : S ∣ off + k + u - (off + j) :=
            (Nat.modEq_iff_dvd' hle).mp heq.symm
          have hpos : 0 < off + k + u - (off + j) := by omega
          have hub : off + k + u - (off + j) < S := by
            rw [flatten_length_const k xs hxs] at hu
            simp only [List.length_cons] at hfit
            omega
          have := Nat.le_of_dvd hpos hdvd
          omega
    rw [hx0]
    refine congrArg (x :: ·) ?_
    have hmain := ih (memWrite S mem off x) (off + k) hxs hfit'
    refine Eq.trans ?_ hmain
    apply List.map_congr_left
    intro i _
    simp only [Function.comp, Nat.succ_eq_add_one]
    apply List.map_congr_left
    intro j _
    have harg : off + ((i + 1) * k + j) = (off + k) + (i * k + j) := by ring
    rw [harg]

/-- C4 counterexample: `read` returns the *oldest* items, so in a state
that already holds data (here one 1-byte item with value 7) writing `[5]`
and reading one item returns `[7]`, not the freshly written `[5]`: the
claim fails for non-empty states that merely have enough free space. -/
theorem C4_counterexample :
    ¬ ((((⟨1, 4096, false, 0, 1, fun _ => 7⟩ : CBuf ℕ).write [[5]]).1.read
        1).2 = [[5]]) := by
  decide

/-- C4 (amended): writing a sequence of `n ≤ capacity` items into a
`circular_buffer` holding no data (`r = w`, in particular a fresh buffer or
one whose cursors have wrapped past the physical size) and then reading
`n` items returns exactly the original sequence, in order. -/
theorem C4_roundtrip {β : Type} (cb : CBuf β) (data : List (List β))
    (hk : 0 < cb.itemSize) (hempty : cb.r = cb.w)
    (hcount : data.length ≤ cb.capacity)
    (hitems : ∀ x ∈ data, x.length = cb.itemSize) :
    ((cb.write data).1.read data.length).2 = data := by
  simp only [CBuf.capacity] at hcount
  have hwr : cb.w - cb.r = 0 := by omega
  have hfit : data.length * cb.itemSize ≤ cb.bufSize :=
    calc data.length * cb.itemSize
        ≤ cb.bufSize / cb.itemSize * cb.itemSize :=
          Nat.mul_le_mul_right _ hcount
      _ ≤ cb.bufSize := Nat.div_mul_le_self _ _
  rcases Nat.eq_zero_or_pos data.length with hn0 | hnpos
  · have hdata : data = [] := List.length_eq_zero.mp hn0
    subst hdata
    simp [CBuf.read]
  · -- the write accepts all `data.length` items
    have hcond : ¬(¬cb.overwrite = true ∧
        (cb.bufSize - (cb.w - cb.r)) / cb.itemSize < data.length) := by
      rw [hwr, Nat.sub_zero]
      rintro ⟨-, hlt⟩
      omega
    simp only [CBuf.write]
    rw [if_neg hcond, if_pos hnpos, List.take_length]
    -- the overwrite clamp does not fire: the new span is `n·k ≤ S`
    set cb1 : CBuf β :=
      { cb with
        mem := memWrite cb.bufSize cb.mem (cb.w % cb.bufSize) data.flatten,
        w := cb.w + data.length * cb.itemSize } with hcb1
    have hclamp : ¬(cb1.overwrite = true ∧ cb1.bufSize < cb1.w - cb1.r) := by
      rintro ⟨-, hlt⟩
      rw [hcb1] at hlt
      dsimp only at hlt
      omega
    rw [if_neg hclamp]
    -- read after the cursor normalisation: the read offset is `w % S`
    have hread : ∀ r' w' : ℕ, r' % cb.bufSize = cb.w % cb.bufSize →
        w' - r' = data.length * cb.itemSize →
        ((⟨cb.itemSize, cb.bufSize, cb.overwrite, r', w', cb1.mem⟩ :
            CBuf β).read data.length).2 = data := by
      intro r' w' hroff hspan
      simp only [CBuf.read]
      rw [hspan, Nat.mul_div_cancel _ hk, Nat.min_self]
      have := memWrite_read_chunks cb.bufSize cb.itemSize data cb.mem
        (cb.w % cb.bufSize) hitems hfit
      refine Eq.trans ?_ this
      apply List.map_congr_left
      intro i _
      apply List.map_congr_left
      intro j _
      rw [hroff]
    unfold CBuf.norm
    split
    · next hboth =>
      dsimp only at hboth ⊢
      refine hread _ _ ?_ ?_
      · rw [hempty]
        exact (Nat.mod_eq_sub_mod (by omega)).symm
      · omega
    · next hboth =>
      refine hread _ _ ?_ ?_
      · rw [hempty]
      · omega

/-- Witness for `C4_roundtrip`: a fresh 2-byte-item buffer, three items. -/
theorem C4_roundtrip_witness :
    (0 : ℕ) < 2 ∧
      (((CBuf.init ℕ 8 2 false 4096 0).write [[1, 2], [3, 4], [5, 6]]).1.read
          3).2 = [[1, 2], [3, 4], [5, 6]] :=
  ⟨by decide,
    C4_roundtrip (CBuf.init ℕ 8 2 false 4096 0) [[1, 2], [3, 4], [5, 6]]
      (by decide) (by decide) (by decide) (by decide)⟩

/-! ## Model of `fcch_detector` (fcch_detector.cc)

Floats are embedded as exact rationals; `std::complex<float>` as a pair of
rationals. -/

/-- A complex sample. -/
structure Cplx where
  re : ℚ
  im : ℚ
  deriving DecidableEq

def Cplx.zero : Cplx := ⟨0, 0⟩

def Cplx.add (a b : Cplx) : Cplx := ⟨a.re + b.re, a.im + b.im⟩

def Cplx.sub (a b : Cplx) : Cplx := ⟨a.re - b.re, a.im - b.im⟩

def Cplx.mul (a b : Cplx) : Cplx :=
  ⟨a.re * b.re - a.im * b.im, a.re * b.im + a.im * b.re⟩

/-- `std::conj`. -/
def Cplx.conj (a : Cplx) : Cplx := ⟨a.re, -a.im⟩

/-- A real (float) scalar times a complex value. -/
def Cplx.smul (g : ℚ) (a : Cplx) : Cplx := ⟨g * a.re, g * a.im⟩

/-- `std::norm`: the squared magnitude. -/
def Cplx.norm2 (a : Cplx) : ℚ := a.re * a.re + a.im * a.im

/-- Sum of a list of complex values (the order of a C accumulation loop;
rational addition is associative and commutative, so the value is the
loop's). -/
def Cplx.sumL (l : List Cplx) : Cplx := l.foldr Cplx.add Cplx.zero

/-- `GSM_RATE = 1625000.0 / 6.0` (kal_types.h). -/
def GSM_RATE : ℚ := 1625000 / 6

/-- `FCCH_OFFSET_MAX = 40e3f` (kal_types.h). -/
def FCCH_OFFSET_MAX : ℚ := 40000

/-- `m_w_len = 2 * m_filter_delay + 1` with `m_filter_delay = 8`. -/
def m_w_len : ℕ := 17

/-- Item capacity of the detector's sample ring `m_x_cb`
(`circular_buffer(8192, sizeof(complex), 0)`; `8192·8` bytes is already
page-aligned, so `m_buf_len = 8192`). -/
def X_CB_CAPACITY : ℕ := 8192

/-- Item capacity of the error ring `m_e_cb`
(`circular_buffer(1015808, sizeof(float), 0)`; `1015808·4` bytes is
page-aligned, so `m_buf_len = 1015808`). -/
def E_CB_CAPACITY : ℕ := 1015808

/-- `vectornorm2(v, len)` (kal_types.h): `Σ |v[i]|²` over `i ∈ [0, len)`. -/
def vectornorm2 (v : List Cplx) (len : ℕ) : ℚ :=
  ((v.take len).map Cplx.norm2).sum

/-- The adaptive-filter state of an `fcch_detector`: weight vector `m_w`
(length `m_w_len = 17`), gain `m_G`, running error power `m_e`, averaging
coefficient `m_p`, prediction delay `m_D`. -/
structure FState where
  w : List Cplx
  G : ℚ
  e : ℚ
  p : ℚ
  D : ℕ
  deriving DecidableEq

/-- The detector state as built by the constructor
`fcch_detector(sample_rate, D = 4, p = 1/4, G = 1)`: zero weights, zero
running error. -/
def FState.init (D : ℕ) (p G : ℚ) : FState :=
  ⟨List.replicate m_w_len Cplx.zero, G, 0, p, D⟩

/-- Everything one `next_norm_error` call produces: the C return value,
the value written through the `error` out-pointer (`none` when nothing is
written), the sample appended to the output ring `m_y_cb` (`none` when
nothing is appended), the new filter state, and the contents of the sample
ring `m_x_cb` after the call. -/
structure StepResult where
  ret : ℕ
  err : Option ℚ
  yOut : Option Cplx
  st : FState
  q : List Cplx
  deriving DecidableEq

/-- `fcch_detector::next_norm_error`, over the sample-ring contents `q`
(the peek window).  Mirrors the source line by line; `getD _ Cplx.zero`
indexing is guarded by the length test exactly as the C pointer accesses
are. -/
def nextNormError (st : FState) (q : List Cplx) : StepResult :=
  let n := m_w_len - 1
  if n + st.D ≥ q.length then ⟨n + st.D - q.length + 1, none, none, st, q⟩
  else
    let E := vectornorm2 q m_w_len
    let G := if E > 1 / 10 ^ 10 then 1 / E else st.G
    let y := Cplx.sumL ((List.range m_w_len).map fun i =>
      (st.w.getD i Cplx.zero).conj.mul (q.getD (n - i) Cplx.zero))
    let yOut := q.getD (n + st.D) Cplx.zero
    let err := yOut.sub y
    let w' := (List.range m_w_len).map fun i =>
      (st.w.getD i Cplx.zero).add
        ((Cplx.smul G err.conj).mul (q.getD (n - i) Cplx.zero))
    let Ediv := E / m_w_len
    let eAvg := (1 - st.p) * st.e + st.p * err.norm2
    let errOut := if Ediv > 1 / 10 ^ 20 then eAvg / Ediv else 0
    ⟨0, some errOut, some yOut, ⟨w', G, eAvg, st.p, st.D⟩, q.tail⟩

theorem nextNormError_step {st : FState} {q : List Cplx}
    (h : ¬(m_w_len - 1 + st.D ≥ q.length)) :
    (nextNormError st q).q = q.tail ∧ (nextNormError st q).st.D = st.D := by
  rw [nextNormError]
  rw [if_neg h]
  exact ⟨rfl, rfl⟩

/-- The inner `while (!next_norm_error(&e))` loop of `scan`: run NLMS steps
while at least `L + D` samples remain, collecting the reported errors in
order.  Returns (errors, final filter state, remaining ring contents). -/
def drain (st : FState) (q : List Cplx) : List ℚ × FState × List Cplx :=
  if h : m_w_len - 1 + st.D ≥ q.length then ([], st, q)
  else
    let r := nextNormError st q
    let rest := drain r.st r.q
    (r.err.toList ++ rest.1, rest.2)
termination_by q.length
decreasing_by
  have hq := (nextNormError_step h).1
  rw [hq, List.length_tail]
  omega

theorem drain_spec (N : ℕ) : ∀ (st : FState) (q : List Cplx),
    q.length ≤ N →
    (drain st q).2.2.length ≤ q.length ∧ (drain st q).2.1.D = st.D ∧
      (drain st q).2.2.length ≤ m_w_len - 1 + st.D ∧
      (m_w_len - 1 + st.D < q.length → (drain st q).2.2.length < q.length) ∧
      (drain st q).1.length + (drain st q).2.2.length = q.length ∧
      (drain st q).2.2.length = min q.length (m_w_len - 1 + st.D) := by
  induction N with
  | zero =>
    intro st q hq
    rw [drain]
    rw [dif_pos (by omega)]
    exact ⟨Nat.le_refl _, rfl, by dsimp only; omega,
      by intro hlt; dsimp only; omega,
      by dsimp only; simp only [List.length_nil]; omega,
      by dsimp only; omega⟩
  | succ N ih =>
    intro st q hq
    rw [drain]
    split
    · next h =>
      exact ⟨Nat.le_refl _, rfl, by dsimp only; omega,
        by intro hlt; dsimp only; omega,
        by dsimp only; simp only [List.length_nil]; omega,
        by dsimp only; omega⟩
    · next h =>
      obtain ⟨hq', hD⟩ := nextNormError_step h
      have hqlen : q.tail.length ≤ N := by
        rw [List.length_tail]; omega
      have hrec := ih (nextNormError st q).st (nextNormError st q).q
        (by rw [hq']; exact hqlen)
      rw [hq', hD] at hrec
      have herr : (nextNormError st q).err.toList.length = 1 := by
        rw [nextNormError]
        rw [if_neg h]
        rfl
      have hlen : q.tail.length = q.length - 1 := List.length_tail q
      dsimp only
      rw [hq']
      obtain ⟨h1, h2, h3, _, h5, h6⟩ := hrec
      refine ⟨by omega, h2, by omega, ?_, ?_, by omega⟩
      · intro hlt
        simp only [m_w_len] at h hlt ⊢
        omega
      · simp only [List.length_append, herr]
        omega

/-- The outer `while (len < s_len)` loop of `scan`: write as many pending
samples as fit into the 8192-item sample ring, drain, repeat.  Returns
(errors in order, final filter state, final ring contents, total written
count `len`).  The C loop never terminates when `L + D` exceeds the ring
capacity (no sample could ever be processed and no space freed); that
unreachable configuration (the program always has `D = 4`) exits with
`len = 0` here. -/
def scanFill (st : FState) (pending q : List Cplx) :
    List ℚ × FState × List Cplx × ℕ :=
  if pending.isEmpty then ([], st, q, 0)
  else if hbad : X_CB_CAPACITY < m_w_len + st.D then ([], st, q, 0)
  else
    let t := min pending.length (X_CB_CAPACITY - q.length)
    let d := drain st (q ++ pending.take t)
    let rest := scanFill d.2.1 (pending.drop t) d.2.2
    (d.1 ++ rest.1, rest.2.1, rest.2.2.1, t + rest.2.2.2)
termination_by 2 * pending.length + q.length
decreasing_by
  rename_i hne
  have hpend : pending.length ≠ 0 := by
    intro h0
    exact hne (List.isEmpty_iff_length_eq_zero.mpr h0)
  rcases Nat.eq_zero_or_pos (min pending.length
      (X_CB_CAPACITY - q.length)) with ht0 | htpos
  · -- ring full: the drain must make strict progress
    have hqfull : X_CB_CAPACITY ≤ q.length := by omega
    simp only [ht0, List.take_zero, List.drop_zero, List.append_nil]
    have hspec := drain_spec q.length st q (Nat.le_refl _)
    have hlt := hspec.2.2.2.1 (by
      simp only [m_w_len, X_CB_CAPACITY] at hbad hqfull ⊢
      omega)
    omega
  · have hspec := drain_spec (q ++ pending.take (min pending.length
        (X_CB_CAPACITY - q.length))).length st
      (q ++ pending.take (min pending.length (X_CB_CAPACITY - q.length)))
      (Nat.le_refl _)
    have hle := hspec.1
    have happ : (q ++ pending.take (min pending.length
        (X_CB_CAPACITY - q.length))).length =
        q.length + min pending.length (X_CB_CAPACITY - q.length) := by
      simp [Nat.min_le_left]
    rw [happ] at hle
    have hdrop : (pending.drop (min pending.length
        (X_CB_CAPACITY - q.length))).length =
        pending.length - min pending.length (X_CB_CAPACITY - q.length) := by
      simp
    omega

/-- Behaviour of the fill/drain loop when the ring can hold a full filter
window (`L + D ≤ 8192`, true of the program's `D = 4`) and starts within
its drained bound: everything pending is written (`len = s_len`), the
delay is preserved, the ring retains exactly `min (total) (L + D − 1)`
samples, and every other sample produced one error value. -/
theorem scanFill_spec (N : ℕ) : ∀ (st : FState) (pending q : List Cplx),
    pending.length ≤ N → m_w_len + st.D ≤ X_CB_CAPACITY →
    q.length ≤ m_w_len - 1 + st.D →
    (scanFill st pending q).2.2.2 = pending.length ∧
      (scanFill st pending q).2.1.D = st.D ∧
      (scanFill st pending q).2.2.1.length =
        min (pending.length + q.length) (m_w_len - 1 + st.D) ∧
      (scanFill st pending q).1.length +
          (scanFill st pending q).2.2.1.length =
        pending.length + q.length := by
  induction N with
  | zero =>
    intro st pending q hN hcap hq
    have hnil : pending = [] := List.length_eq_zero.mp (by omega)
    subst hnil
    rw [scanFill]
    rw [if_pos (show (List.isEmpty ([] : List Cplx)) = true from rfl)]
    exact ⟨rfl, rfl,
      by dsimp only; simp only [List.length_nil, m_w_len] at hq ⊢ <;> omega,
      by dsimp only; simp only [List.length_nil, m_w_len] at hq ⊢ <;> omega⟩
  | succ N ih =>
    intro st pending q hN hcap hq
    rcases Decidable.em (pending.isEmpty = true) with hemp | hemp
    · have hnil : pending = [] := List.isEmpty_iff.mp hemp
      subst hnil
      rw [scanFill]
      rw [if_pos (show (List.isEmpty ([] : List Cplx)) = true from rfl)]
      exact ⟨rfl, rfl,
        by dsimp only; simp only [List.length_nil, m_w_len] at hq ⊢ <;> omega,
        by dsimp only; simp only [List.length_nil, m_w_len] at hq ⊢ <;> omega⟩
    · have hpend : 0 < pending.length := by
        rcases pending with _ | ⟨a, l⟩
        · exact absurd rfl hemp
        · simp
      rw [scanFill]
      rw [if_neg hemp, dif_neg (by omega)]
      dsimp only
      set t := min pending.length (X_CB_CAPACITY - q.length) with htdef
      have htle : t ≤ pending.length := by
        rw [htdef]; exact Nat.min_le_left _ _
      have htpos : 0 < t := by
        rw [htdef]
        simp only [m_w_len, X_CB_CAPACITY] at hcap hq ⊢
        omega
      set B := drain st (q ++ pending.take t) with hB
      set A := scanFill B.2.1 (pending.drop t) B.2.2 with hA
      have happlen : (q ++ pending.take t).length = q.length + t := by
        simp only [List.length_append, List.length_take]
        omega
      have hdr := drain_spec (q ++ pending.take t).length st
        (q ++ pending.take t) (Nat.le_refl _)
      rw [← hB, happlen] at hdr
      obtain ⟨_, hdrD, hdr3, _, hdr5, hdr6⟩ := hdr
      have hih := ih B.2.1 (pending.drop t) B.2.2
        (by simp only [List.length_drop]; omega)
        (by rw [hdrD]; exact hcap)
        (by rw [hdrD]; exact hdr3)
      rw [← hA] at hih
      obtain ⟨hi1, hi2, hi3, hi4⟩ := hih
      have hdroplen : (pending.drop t).length = pending.length - t := by
        simp
      refine ⟨?_, ?_, ?_, ?_⟩
      · rw [hi1, hdroplen]
        omega
      · rw [hi2, hdrD]
      · rw [hi3, hdroplen, hdr6, hdrD]
        omega
      · simp only [List.length_append]
        rw [hi3, hdroplen, hdr6, hdrD] at hi4
        rw [hi3, hdroplen, hdr6, hdrD]
        omega

/-- `fcch_detector::low_to_high`: one step of the edge state machine.
State `true` is `HIGH`, `false` is `LOW`.  Returns (emitted region length,
new state, new counter). -/
def lowToHigh (state : Bool) (count : ℕ) (e a : ℚ) : ℕ × Bool × ℕ :=
  if e > a then
    if state = false then (count, true, 1) else (0, true, count + 1)
  else
    if state = true then (0, false, 1) else (0, false, count + 1)

/-- The full walk of the edge machine over an error sequence starting at
index `i` in state (`stt`, `cnt`): the list of (index, emitted length)
pairs, one per error sample.  `low_to_high_init` corresponds to starting
at `i = 0` with (`true`, `0`); an entry `(i, l)` with `l > 0` is a
low-error region of length `l` occupying indices `[i − l, i)`. -/
def edgeWalkGo (limit : ℚ) : List ℚ → ℕ → Bool → ℕ → List (ℕ × ℕ)
  | [], _, _, _ => []
  | e :: rest, i, stt, cnt =>
    let s := lowToHigh stt cnt e limit
    (i, s.1) :: edgeWalkGo limit rest (i + 1) s.2.1 s.2.2

def edgeWalk (limit : ℚ) (errs : List ℚ) : List (ℕ × ℕ) :=
  edgeWalkGo limit errs 0 true 0

/-- The `for (i = 0; i < e_count; i++)` loop of `scan`: walk the stored
error sequence; at each emitted region of length `≥ MIN_FB_LEN` consult the
tone estimator `fd` on (region start, `min l m_fcch_burst_len`); break at
the first `pm > MIN_PM = 50`.  Returns the (offset, pm) of the breaking
region, or `none` when the loop runs to the end (in which case the C code
takes the `pm <= MIN_PM` exit and returns 0). -/
def scanLoopGo (fd : ℕ → ℕ → ℚ × ℚ) (minFB fcchLen : ℕ) (limit : ℚ) :
    List ℚ → ℕ → Bool → ℕ → Option (ℚ × ℚ)
  | [], _, _, _ => none
  | e :: rest, i, stt, cnt =>
    let s := lowToHigh stt cnt e limit
    if minFB ≤ s.1 then
      let y := fd (i - s.1) (min s.1 fcchLen)
      if (50 : ℚ) < y.2 then some y
      else scanLoopGo fd minFB fcchLen limit rest (i + 1) s.2.1 s.2.2
    else scanLoopGo fd minFB fcchLen limit rest (i + 1) s.2.1 s.2.2

/-- `MIN_FB_LEN = (unsigned int)(100 * sps)` with
`sps = m_sample_rate / GSM_RATE`. -/
def MIN_FB_LEN (sampleRate : ℚ) : ℕ := ⌊100 * (sampleRate / GSM_RATE)⌋.toNat

/-- `m_fcch_burst_len = (unsigned int)(148.0 * (m_sample_rate / GSM_RATE))`
(constructor). -/
def m_fcch_burst_len (sampleRate : ℚ) : ℕ :=
  ⌊148 * (sampleRate / GSM_RATE)⌋.toNat

/-- What `fcch_detector::scan` returns and leaves behind: the C return
value (1 found / 0 not), the value written through the `offset`
out-pointer (`none` = not written), the value written through `consumed`,
and the filter state (the weights persist across calls; the three rings
are flushed). -/
structure ScanResult where
  ret : ℕ
  offset : Option ℚ
  consumed : ℕ
  st : FState

/-- `fcch_detector::scan`, parametric in the tone-estimator oracle `fd`
(mapping the window `[y_offset, y_offset + y_len)` of the input to
`freq_detect`'s (frequency, pm) pair).  Stages: fill/drain every input
sample through the NLMS filter collecting errors (`scanFill`; the error
ring keeps only its first `E_CB_CAPACITY` values while `sum` accumulates
all of them), set `consumed`, bail out if no errors are stored, take
`limit = 0.7 · (sum / e_count)`, walk the edge machine
(`low_to_high_init`; `scanLoopGo`), and report. -/
def scan (fd : ℕ → ℕ → ℚ × ℚ) (sampleRate : ℚ) (st : FState)
    (s : List Cplx) : ScanResult :=
  let fill := scanFill st s []
  let stored := fill.1.take E_CB_CAPACITY
  let consumed := fill.2.2.2
  if stored.length = 0 then ⟨0, none, consumed, fill.2.1⟩
  else
    let avg := fill.1.sum / (stored.length : ℚ)
    let limit := (7 / 10) * avg
    match scanLoopGo fd (MIN_FB_LEN sampleRate) (m_fcch_burst_len sampleRate)
        limit stored 0 true 0 with
    | some y => ⟨1, some y.1, consumed, fill.2.1⟩
    | none => ⟨0, none, consumed, fill.2.1⟩

/-! ## C2 / C10: the NLMS step -/

theorem Cplx.norm2_nonneg (a : Cplx) : 0 ≤ a.norm2 := by
  unfold Cplx.norm2
  nlinarith [sq_nonneg a.re, sq_nonneg a.im]

/-- C2 counterexample: a step whose window energy `E = 4·10⁻²⁰` lies
strictly between `10⁻²⁰` and `L·10⁻²⁰ = 17·10⁻²⁰`.  The claim's guard
`E > 10⁻²⁰` holds and its value `e_avg/(E/L)` is nonzero (the updated
running average is `3/4`), yet the code divides `E` by `L` *before* the
`1e-20` comparison and therefore reports `0`. -/
theorem C2_counterexample :
    vectornorm2 (Cplx.mk (2 / 10 ^ 10) 0 :: List.replicate 20 Cplx.zero)
        m_w_len > 1 / 10 ^ 20 ∧
      (nextNormError ⟨List.replicate m_w_len Cplx.zero, 1, 1, 1 / 4, 4⟩
          (Cplx.mk (2 / 10 ^ 10) 0 :: List.replicate 20 Cplx.zero)).err =
        some 0 ∧
      (nextNormError ⟨List.replicate m_w_len Cplx.zero, 1, 1, 1 / 4, 4⟩
            (Cplx.mk (2 / 10 ^ 10) 0 :: List.replicate 20 Cplx.zero)).st.e /
          (vectornorm2 (Cplx.mk (2 / 10 ^ 10) 0 :: List.replicate 20
            Cplx.zero) m_w_len / (m_w_len : ℚ)) ≠ 0 := by
  have hE : vectornorm2 (Cplx.mk (2 / 10 ^ 10) 0 :: List.replicate 20
      Cplx.zero) m_w_len = 4 / 10 ^ 20 := by
    simp only [vectornorm2, m_w_len, List.take_succ_cons, List.take_replicate,
      List.map_cons, List.map_replicate, List.sum_cons, Cplx.norm2, Cplx.zero]
    norm_num
  refine ⟨by rw [hE]; norm_num, ?_, ?_⟩
  · rw [nextNormError]
    rw [if_neg (by decide)]
    dsimp only
    rw [hE]
    rw [if_neg (by norm_num [m_w_len])]
  · rw [nextNormError]
    rw [if_neg (by decide)]
    dsimp only
    rw [hE]
    have hn := Cplx.norm2_nonneg
      (((Cplx.mk (2 / 10 ^ 10) 0 :: List.replicate 20 Cplx.zero).getD
          (m_w_len - 1 + 4) Cplx.zero).sub
        (Cplx.sumL ((List.range m_w_len).map fun i =>
          ((List.replicate m_w_len Cplx.zero).getD i Cplx.zero).conj.mul
            ((Cplx.mk (2 / 10 ^ 10) 0 :: List.replicate 20 Cplx.zero).getD
              (m_w_len - 1 - i) Cplx.zero))))
    apply div_ne_zero
    · nlinarith [hn]
    · norm_num [m_w_len]

/-- C2 (amended): in every NLMS step with at least `L + D` samples
available, the gain becomes `1/E` when the window energy
`E = Σ_{i<L} |x[i]|²` exceeds `10⁻¹⁰` and is otherwise retained, and the
reported normalized error is `e_avg/(E/L)` when `E/L > 10⁻²⁰`
(equivalently `E > L·10⁻²⁰`) and `0` otherwise, where `e_avg` is the
updated running error average of the step. -/
theorem C2_nlms_gain_error (st : FState) (q : List Cplx)
    (h : m_w_len + st.D ≤ q.length) :
    (nextNormError st q).st.G =
        (if 1 / 10 ^ 10 < vectornorm2 q m_w_len then
          1 / vectornorm2 q m_w_len else st.G) ∧
      (nextNormError st q).err =
        some (if 1 / 10 ^ 20 < vectornorm2 q m_w_len / (m_w_len : ℚ) then
          (nextNormError st q).st.e / (vectornorm2 q m_w_len / (m_w_len : ℚ))
        else 0) := by
  rw [nextNormError]
  rw [if_neg (by simp only [m_w_len] at h ⊢; omega)]
  exact ⟨rfl, rfl⟩

/-- Witness for `C2_nlms_gain_error`: a window of 25 unit samples
(`E = 17 > 10⁻¹⁰`). -/
theorem C2_nlms_gain_error_witness :
    m_w_len + (4 : ℕ) ≤ 25 ∧
      ((nextNormError ⟨List.replicate m_w_len Cplx.zero, 1, 0, 1 / 4, 4⟩
          (List.replicate 25 (Cplx.mk 1 0))).st.G =
          (if 1 / 10 ^ 10 <
              vectornorm2 (List.replicate 25 (Cplx.mk 1 0)) m_w_len then
            1 / vectornorm2 (List.replicate 25 (Cplx.mk 1 0)) m_w_len
          else 1) ∧
        (nextNormError ⟨List.replicate m_w_len Cplx.zero, 1, 0, 1 / 4, 4⟩
            (List.replicate 25 (Cplx.mk 1 0))).err =
          some (if 1 / 10 ^ 20 <
              vectornorm2 (List.replicate 25 (Cplx.mk 1 0)) m_w_len /
                (m_w_len : ℚ) then
            (nextNormError ⟨List.replicate m_w_len Cplx.zero, 1, 0, 1 / 4, 4⟩
                (List.replicate 25 (Cplx.mk 1 0))).st.e /
              (vectornorm2 (List.replicate 25 (Cplx.mk 1 0)) m_w_len /
                (m_w_len : ℚ))
          else 0)) :=
  ⟨by decide,
    C2_nlms_gain_error ⟨List.replicate m_w_len Cplx.zero, 1, 0, 1 / 4, 4⟩
      (List.replicate 25 (Cplx.mk 1 0)) (by decide)⟩

/-- C10 (confirmed): with fewer than `L + D` samples in the sample ring,
`next_norm_error` returns the positive count `(L + D) − available` of
missing samples, changes neither the filter state (weights, gain, running
average) nor the sample ring, appends nothing to the output ring, and
writes nothing through the `error` pointer. -/
theorem C10_need_more (st : FState) (q : List Cplx)
    (h : q.length < m_w_len + st.D) :
    (nextNormError st q).ret = (m_w_len + st.D) - q.length ∧
      0 < (nextNormError st q).ret ∧
      (nextNormError st q).err = none ∧
      (nextNormError st q).yOut = none ∧
      (nextNormError st q).st = st ∧
      (nextNormError st q).q = q := by
  rw [nextNormError]
  rw [if_pos (by simp only [m_w_len] at h ⊢; omega)]
  refine ⟨?_, ?_, rfl, rfl, rfl, rfl⟩
  · simp only [m_w_len] at h ⊢
    omega
  · simp only [m_w_len] at h ⊢
    omega

/-- Witness for `C10_need_more`: a ring holding 12 samples (9 missing). -/
theorem C10_need_more_witness :
    (List.replicate 12 Cplx.zero).length <
        m_w_len + (FState.init 4 (1 / 4) 1).D ∧
      (nextNormError (FState.init 4 (1 / 4) 1)
          (List.replicate 12 Cplx.zero)).ret = 9 ∧
      (nextNormError (FState.init 4 (1 / 4) 1)
          (List.replicate 12 Cplx.zero)).err = none :=
  ⟨by decide,
    by
      have hmain := C10_need_more (FState.init 4 (1 / 4) 1)
        (List.replicate 12 Cplx.zero) (by decide)
      exact ⟨by rw [hmain.1]; decide, hmain.2.2.1⟩⟩

/-! ## C9: scan writes everything and reports `consumed = s_len` -/

/-- C9 (confirmed): for every input buffer `s`, `scan` terminates having
written all `s_len` samples into the filter pipeline and reports
`consumed = s_len`, on the found and the not-found outcome alike (the
`consumed` write happens before the early `e_count == 0` return and before
the found/not-found split).  "All samples pass through the filter" is
witnessed by the error count: one normalized error per sample beyond the
`L + D − 1` that remain below the filter window (and are flushed).  The
hypothesis `L + D ≤ 8192` (ring capacity) holds for the program's `D = 4`
and excludes the configurations where the C loop itself would not
terminate. -/
theorem C9_scan_consumed (fd : ℕ → ℕ → ℚ × ℚ) (sampleRate : ℚ)
    (st : FState) (s : List Cplx) (hcap : m_w_len + st.D ≤ X_CB_CAPACITY) :
    (scan fd sampleRate st s).consumed = s.length ∧
      (scanFill st s []).1.length =
        s.length - min s.length (m_w_len - 1 + st.D) := by
  have hspec := scanFill_spec s.length st s [] (Nat.le_refl _) hcap
    (by simp)
  obtain ⟨h1, _, h3, h4⟩ := hspec
  constructor
  · rw [scan]
    dsimp only
    split
    · exact h1
    · split <;> exact h1
  · simp only [List.length_nil, Nat.add_zero] at h3 h4
    omega

/-- Witness for `C9_scan_consumed`: 25 unit samples through a default
detector (`D = 4`): `consumed = 25` and `5 = 25 − 20` errors emitted. -/
theorem C9_scan_consumed_witness :
    m_w_len + (FState.init 4 (1 / 4) 1).D ≤ X_CB_CAPACITY ∧
      ((scan (fun _ _ => (0, 0)) GSM_RATE (FState.init 4 (1 / 4) 1)
          (List.replicate 25 (Cplx.mk 1 0))).consumed =
          (List.replicate 25 (Cplx.mk 1 0)).length ∧
        (scanFill (FState.init 4 (1 / 4) 1)
            (List.replicate 25 (Cplx.mk 1 0)) []).1.length =
          (List.replicate 25 (Cplx.mk 1 0)).length -
            min (List.replicate 25 (Cplx.mk 1 0)).length
              (m_w_len - 1 + (FState.init 4 (1 / 4) 1).D)) :=
  ⟨by decide,
    C9_scan_consumed (fun _ _ => (0, 0)) GSM_RATE (FState.init 4 (1 / 4) 1)
      (List.replicate 25 (Cplx.mk 1 0)) (by decide)⟩

/-! ## C1: scan finds exactly the first qualifying low-error region -/

/-- A walk entry `(i, l)` (a low region of length `l` ending just before
index `i`) qualifies when `l ≥ MIN_FB_LEN` and the tone estimate over the
first `min l m_fcch_burst_len` samples of the region has `pm > 50`. -/
def regionHit (fd : ℕ → ℕ → ℚ × ℚ) (minFB fcchLen : ℕ) (p : ℕ × ℕ) :
    Bool :=
  decide (minFB ≤ p.2) && decide ((50 : ℚ) < (fd (p.1 - p.2) (min p.2 fcchLen)).2)

theorem edgeWalk_eq (limit : ℚ) (errs : List ℚ) :
    edgeWalk limit errs = edgeWalkGo limit errs 0 true 0 := rfl

/-- The `scan` region loop computes exactly the tone estimate of the first
qualifying entry of the edge-machine walk. -/
theorem scanLoopGo_eq_find (fd : ℕ → ℕ → ℚ × ℚ) (minFB fcchLen : ℕ)
    (limit : ℚ) :
    ∀ (errs : List ℚ) (i : ℕ) (stt : Bool) (cnt : ℕ),
      scanLoopGo fd minFB fcchLen limit errs i stt cnt =
        ((edgeWalkGo limit errs i stt cnt).find?
            (regionHit fd minFB fcchLen)).map
          (fun p => fd (p.1 - p.2) (min p.2 fcchLen)) := by
  intro errs
  induction errs with
  | nil => intro i stt cnt; rfl
  | cons e rest ih =>
    intro i stt cnt
    simp only [scanLoopGo, edgeWalkGo]
    rcases Decidable.em (minFB ≤ (lowToHigh stt cnt e limit).1) with hge | hlt
    · rw [if_pos hge]
      rcases Decidable.em ((50 : ℚ) <
          (fd (i - (lowToHigh stt cnt e limit).1)
            (min (lowToHigh stt cnt e limit).1 fcchLen)).2) with hpm | hpm
      · rw [if_pos hpm, List.find?_cons_of_pos]
        · rfl
        · simp [regionHit, hge, hpm]
      · rw [if_neg hpm, List.find?_cons_of_neg, ih]
        simp [regionHit, hpm]
    · rw [if_neg hlt, List.find?_cons_of_neg, ih]
      simp [regionHit, hlt]

/-- C1 (confirmed): `scan` returns 1 exactly when the walk of the error
sequence (in order, by the `low_to_high` machine against
`limit = 0.7 · avg`) contains a low-error region of length `≥ MIN_FB_LEN =
⌊100·sps⌻` whose tone estimate over the first `min l (148·sps)` samples
has `pm > 50`; the first such region's detected frequency is what is
written through `*offset`, and when no region qualifies (or no errors were
stored) the return is 0 and `*offset` is not written.  The tone estimator
is the oracle `fd`; `1 ≤ MIN_FB_LEN` holds for every real sample rate
(`sps ≈ 1`). -/
theorem C1_scan_found_iff (fd : ℕ → ℕ → ℚ × ℚ) (sampleRate : ℚ)
    (st : FState) (s : List Cplx) (hmin : 1 ≤ MIN_FB_LEN sampleRate) :
    ((scan fd sampleRate st s).ret = 1 ↔
      ∃ p ∈ edgeWalk ((7 / 10) * ((scanFill st s []).1.sum /
            ((((scanFill st s []).1.take E_CB_CAPACITY).length : ℕ) : ℚ)))
          ((scanFill st s []).1.take E_CB_CAPACITY),
        MIN_FB_LEN sampleRate ≤ p.2 ∧
          (50 : ℚ) <
            (fd (p.1 - p.2) (min p.2 (m_fcch_burst_len sampleRate))).2) ∧
      (scan fd sampleRate st s).offset =
        ((edgeWalk ((7 / 10) * ((scanFill st s []).1.sum /
              ((((scanFill st s []).1.take E_CB_CAPACITY).length : ℕ) : ℚ)))
            ((scanFill st s []).1.take E_CB_CAPACITY)).find?
          (regionHit fd (MIN_FB_LEN sampleRate)
            (m_fcch_burst_len sampleRate))).map
        (fun p =>
          (fd (p.1 - p.2) (min p.2 (m_fcch_burst_len sampleRate))).1) := by
  rw [scan]
  dsimp only
  split
  · next hempty =>
    have hnil : (scanFill st s []).1.take E_CB_CAPACITY = [] :=
      List.length_eq_zero.mp hempty
    rw [hnil]
    constructor
    · simp [edgeWalk, edgeWalkGo]
    · simp [edgeWalk, edgeWalkGo]
  · next hne =>
    have heq := scanLoopGo_eq_find fd (MIN_FB_LEN sampleRate)
      (m_fcch_burst_len sampleRate)
      ((7 / 10) * ((scanFill st s []).1.sum /
        ((((scanFill st s []).1.take E_CB_CAPACITY).length : ℕ) : ℚ)))
      ((scanFill st s []).1.take E_CB_CAPACITY) 0 true 0
    split
    · next y hsome =>
      rw [heq] at hsome
      rw [← edgeWalk_eq] at hsome
      obtain ⟨p, hfind, hfd⟩ := Option.map_eq_some'.mp hsome
      have hmem := List.mem_of_find?_eq_some hfind
      have hhit := List.find?_some hfind
      simp only [regionHit, Bool.and_eq_true, decide_eq_true_eq] at hhit
      constructor
      · constructor
        · intro _
          exact ⟨p, hmem, hhit.1, by rw [hfd]; exact hfd ▸ hhit.2⟩
        · intro _
          rfl
      · show some y.1 = _
        rw [hfind, ← hfd]
        rfl
    · next hnone =>
      rw [heq] at hnone
      rw [← edgeWalk_eq] at hnone
      have hfindn := Option.map_eq_none'.mp hnone
      have hall := List.find?_eq_none.mp hfindn
      constructor
      · constructor
        · intro h01
          have h01' : (0 : ℕ) = 1 := h01
          exact absurd h01' (by decide)
        · rintro ⟨p, hmem, hlen, hpm⟩
          have hp := hall p hmem
          simp only [regionHit, Bool.and_eq_true, decide_eq_true_eq,
            not_and] at hp
          exact absurd hpm (hp hlen)
      · rw [hfindn]
        rfl

/-- Witness for `C1_scan_found_iff` at the nominal sample rate
(`sps = 1`, `MIN_FB_LEN = 100`) on the empty buffer. -/
theorem C1_scan_found_iff_witness :
    1 ≤ MIN_FB_LEN GSM_RATE ∧
      (((scan (fun _ _ => (0, 0)) GSM_RATE (FState.init 4 (1 / 4) 1)
          []).ret = 1 ↔
        ∃ p ∈ edgeWalk ((7 / 10) *
              ((scanFill (FState.init 4 (1 / 4) 1) [] []).1.sum /
              ((((scanFill (FState.init 4 (1 / 4) 1) [] []).1.take
                E_CB_CAPACITY).length : ℕ) : ℚ)))
            ((scanFill (FState.init 4 (1 / 4) 1) [] []).1.take
              E_CB_CAPACITY),
          MIN_FB_LEN GSM_RATE ≤ p.2 ∧
            (50 : ℚ) < ((fun (_ _ : ℕ) => ((0 : ℚ), (0 : ℚ))) (p.1 - p.2)
              (min p.2 (m_fcch_burst_len GSM_RATE))).2) ∧
      (scan (fun _ _ => (0, 0)) GSM_RATE (FState.init 4 (1 / 4) 1)
          []).offset =
        ((edgeWalk ((7 / 10) *
              ((scanFill (FState.init 4 (1 / 4) 1) [] []).1.sum /
              ((((scanFill (FState.init 4 (1 / 4) 1) [] []).1.take
                E_CB_CAPACITY).length : ℕ) : ℚ)))
            ((scanFill (FState.init 4 (1 / 4) 1) [] []).1.take
              E_CB_CAPACITY)).find?
          (regionHit (fun _ _ => (0, 0)) (MIN_FB_LEN GSM_RATE)
            (m_fcch_burst_len GSM_RATE))).map
        (fun p => (((fun (_ _ : ℕ) => ((0 : ℚ), (0 : ℚ))) (p.1 - p.2)
          (min p.2 (m_fcch_burst_len GSM_RATE))).1))) :=
  ⟨by norm_num [MIN_FB_LEN, GSM_RATE],
    C1_scan_found_iff (fun _ _ => (0, 0)) GSM_RATE (FState.init 4 (1 / 4) 1)
      [] (by norm_num [MIN_FB_LEN, GSM_RATE])⟩

/-! ## util.cc statistics, offset_detect (C5, C8) and c0_detect (C6, C7) -/

/-- `sort(data, len)` (util.cc): `qsort` ascending by value.  Every
comparison sort of rationals produces the same list — the unique
`≤`-sorted permutation — so the model is insertion sort. -/
def sortF (data : List ℚ) : List ℚ := data.insertionSort (· ≤ ·)

/-- `avg(data, len, &stddev)` (util.cc): one pass accumulating `sum` and
`sum_sq`; returns `(mean, variance)` with `mean = sum/len` and
`variance = sum_sq/len − mean²`.  The C code stores
`stddev = sqrt(variance)`; `√` is injective on nonnegatives, so variance
equality is standard-deviation equality. -/
def avgVar (data : List ℚ) : ℚ × ℚ :=
  let sum := data.sum
  let sumSq := (data.map fun x => x * x).sum
  let mean := sum / (data.length : ℚ)
  (mean, sumSq / (data.length : ℚ) - mean * mean)

/-- The analysis tail of `offset_detect` (offset.cc) on the collected
offsets (`count = offsets.length`): sort ascending;
`threshold = count/10` when `count ≥ 10`, else 0; run `avg` on
`offsets + threshold` with `count − 2·threshold` entries;
`min = offsets[threshold]`, `max = offsets[count − threshold − 1]`.
Returns (mean, variance, min, max). -/
def offsetAnalysis (offsets : List ℚ) : ℚ × ℚ × ℚ × ℚ :=
  let count := offsets.length
  let sorted := sortF offsets
  let threshold := if 10 ≤ count then count / 10 else 0
  let window := (sorted.drop threshold).take (count - 2 * threshold)
  let mv := avgVar window
  (mv.1, mv.2, sorted.getD threshold 0, sorted.getD (count - threshold - 1) 0)

/-- The pass-1 detection threshold of `c0_detect` (c0_detect.cc): with
`chan_count > 0`, `a = avg(spower, chan_count − 4·chan_count/10, 0)` on
the ascending-sorted per-channel powers; otherwise `a = 0`. -/
def c0_threshold (powers : List ℚ) : ℚ :=
  let n := powers.length
  if 0 < n then (avgVar ((sortF powers).take (n - 4 * n / 10))).1 else 0

/-- The pass-2 gate of `c0_detect`: `if (power[i] <= a) { skip }` — a
channel with measured power `p` is scanned iff `a < p`. -/
def c0_scanned (powers : List ℚ) (p : ℚ) : Bool :=
  decide (c0_threshold powers < p)

/-- `NOTFOUND_MAX` (c0_detect.cc line 44). -/
def NOTFOUND_MAX : ℕ := 10

/-- The failed-scan branch of the pass-2 loop:
`notfound_count += 1; if (notfound_count >= NOTFOUND_MAX) { reset;
advance }`.  Returns (new counter, advanced?). -/
def notfoundStep (cnt : ℕ) : ℕ × Bool :=
  let c := cnt + 1
  if NOTFOUND_MAX ≤ c then (0, true) else (c, false)

/-- `k` consecutive failed scans of one channel starting from counter 0:
the final counter and whether the driver ever advanced. -/
def failedScans : ℕ → ℕ × Bool
  | 0 => (0, false)
  | k + 1 =>
    let r := failedScans k
    let s := notfoundStep r.1
    (s.1, r.2 || s.2)

/-- The acceptance test of `offset_detect` (offset.cc lines 115–118): the
detection with raw frequency `raw` is recorded iff
`fabs(raw − GSM_RATE/4 − tuner_error) < FCCH_OFFSET_MAX`. -/
def offsetKept (raw tunerError : ℚ) : Bool :=
  decide (|raw - GSM_RATE / 4 - tunerError| < FCCH_OFFSET_MAX)

/-- The acceptance test of `c0_detect` pass 2 (lines 205–207): a scan
result is counted as found iff `r` is nonzero and
`fabsf(offset − GSM_RATE/4) < FCCH_OFFSET_MAX`. -/
def c0_found (r : ℕ) (offset : ℚ) : Bool :=
  decide (r ≠ 0) && decide (|offset - GSM_RATE / 4| < FCCH_OFFSET_MAX)

/-! ### C7: the driver advances after ten failed scans, not five -/

/-- C7 counterexample: five consecutive failed scans leave the counter at
5 and the driver still on the same channel (`NOTFOUND_MAX = 10`): the
claimed advance after five failures does not happen. -/
theorem C7_counterexample : failedScans 5 = (5, false) := by decide

/-- C7 (amended): the driver advances to the next channel exactly after
ten consecutive failed scans of the same channel (`NOTFOUND_MAX = 10`),
and at no earlier point. -/
theorem C7_notfound_advance :
    (failedScans NOTFOUND_MAX = (0, true)) ∧
      ∀ k, k < NOTFOUND_MAX → (failedScans k).2 = false := by decide

/-! ### C8: the 40 kHz gate is strict -/

/-- C8 counterexample: a detection exactly 40 kHz above `GSM_RATE/4` is
discarded by the code (`fabs(offset) < FCCH_OFFSET_MAX` is false at
equality), while the claim (`discarded iff > 40 kHz`) says it is kept. -/
theorem C8_counterexample :
    offsetKept (GSM_RATE / 4 + 40000) 0 = false ∧
      ¬ ((40000 : ℚ) < |(GSM_RATE / 4 + 40000) - GSM_RATE / 4|) := by
  constructor
  · simp only [offsetKept, decide_eq_false_iff_not, not_lt, FCCH_OFFSET_MAX]
    norm_num
  · norm_num

/-- C8 (amended): a detection is kept iff its distance from `GSM_RATE/4`
is strictly below 40 kHz — discarded iff `≥ 40 kHz`, in both
`offset_detect` (with the tuner error subtracted as in the source) and
`c0_detect`; an offset exactly 40 kHz away is discarded. -/
theorem C8_offset_gate (raw tunerError offset : ℚ) (r : ℕ) :
    (offsetKept raw tunerError = false ↔
      FCCH_OFFSET_MAX ≤ |raw - GSM_RATE / 4 - tunerError|) ∧
      (c0_found r offset = true ↔
        r ≠ 0 ∧ |offset - GSM_RATE / 4| < FCCH_OFFSET_MAX) := by
  constructor
  · simp [offsetKept, not_lt]
  · simp [c0_found]

/-! ### C6: the power threshold and the pass-2 gate -/

/-- C6 (confirmed): with `n > 0` channels swept, the detection threshold
equals the arithmetic mean of the first `n − 4n/10` entries of the
ascending-sorted power array (the lowest 60%), and a channel is scanned in
pass 2 exactly when its power strictly exceeds that threshold. -/
theorem C6_power_threshold (powers : List ℚ) (h : 0 < powers.length)
    (p : ℚ) :
    c0_threshold powers =
        ((sortF powers).take
            (powers.length - 4 * powers.length / 10)).sum /
          ((powers.length - 4 * powers.length / 10 : ℕ) : ℚ) ∧
      (c0_scanned powers p = true ↔ c0_threshold powers < p) := by
  constructor
  · simp only [c0_threshold]
    rw [if_pos h]
    simp only [avgVar]
    have hlen : ((sortF powers).take
        (powers.length - 4 * powers.length / 10)).length =
        powers.length - 4 * powers.length / 10 := by
      rw [List.length_take, sortF, List.length_insertionSort]
      omega
    rw [hlen]
  · simp [c0_scanned]

/-- Witness for `C6_power_threshold` on three channels. -/
theorem C6_power_threshold_witness :
    (0 : ℕ) < ([3, 1, 2] : List ℚ).length ∧
      (c0_threshold [3, 1, 2] =
          ((sortF [3, 1, 2]).take
              (([3, 1, 2] : List ℚ).length -
                4 * ([3, 1, 2] : List ℚ).length / 10)).sum /
            ((([3, 1, 2] : List ℚ).length -
              4 * ([3, 1, 2] : List ℚ).length / 10 : ℕ) : ℚ) ∧
        (c0_scanned [3, 1, 2] 5 = true ↔ c0_threshold [3, 1, 2] < 5)) :=
  ⟨by decide, C6_power_threshold [3, 1, 2] (by decide) 5⟩

/-! ### C5: trimmed mean / stddev / min / max of the sorted offsets -/

/-- C5 (confirmed): with at least 10 collected offsets, the reported mean
and variance (the square of the reported standard deviation) are the
arithmetic mean and population variance of the trimmed window — the
ascending-sorted offsets with the bottom `count/10` and the top `count/10`
entries dropped — and the reported min and max are that window's first and
last entries. -/
theorem C5_offset_stats (offsets : List ℚ) (h10 : 10 ≤ offsets.length) :
    (offsetAnalysis offsets).1 =
        (((sortF offsets).drop (offsets.length / 10)).take
            (offsets.length - 2 * (offsets.length / 10))).sum /
          ((((sortF offsets).drop (offsets.length / 10)).take
            (offsets.length - 2 * (offsets.length / 10))).length : ℚ) ∧
      (offsetAnalysis offsets).2.1 =
        ((((sortF offsets).drop (offsets.length / 10)).take
              (offsets.length - 2 * (offsets.length / 10))).map
            fun x => x * x).sum /
            ((((sortF offsets).drop (offsets.length / 10)).take
              (offsets.length - 2 * (offsets.length / 10))).length : ℚ) -
          ((((sortF offsets).drop (offsets.length / 10)).take
              (offsets.length - 2 * (offsets.length / 10))).sum /
            ((((sortF offsets).drop (offsets.length / 10)).take
              (offsets.length - 2 * (offsets.length / 10))).length : ℚ)) *
          ((((sortF offsets).drop (offsets.length / 10)).take
              (offsets.length - 2 * (offsets.length / 10))).sum /
            ((((sortF offsets).drop (offsets.length / 10)).take
              (offsets.length - 2 * (offsets.length / 10))).length : ℚ)) ∧
      (offsetAnalysis offsets).2.2.1 =
        (((sortF offsets).drop (offsets.length / 10)).take
          (offsets.length - 2 * (offsets.length / 10))).getD 0 0 ∧
      (offsetAnalysis offsets).2.2.2 =
        (((sortF offsets).drop (offsets.length / 10)).take
            (offsets.length - 2 * (offsets.length / 10))).getD
          ((((sortF offsets).drop (offsets.length / 10)).take
            (offsets.length - 2 * (offsets.length / 10))).length - 1) 0 := by
  have hsortlen : (sortF offsets).length = offsets.length := by
    rw [sortF, List.length_insertionSort]
  have hdroplen : ((sortF offsets).drop (offsets.length / 10)).length =
      offsets.length - offsets.length / 10 := by
    rw [List.length_drop, hsortlen]
  have hWlen : (((sortF offsets).drop (offsets.length / 10)).take
      (offsets.length - 2 * (offsets.length / 10))).length =
      offsets.length - 2 * (offsets.length / 10) := by
    rw [List.length_take, hdroplen]
    omega
  simp only [offsetAnalysis, avgVar]
  rw [if_pos h10]
  refine ⟨rfl, rfl, ?_, ?_⟩
  · -- min: `sorted[threshold]` is the window's first entry
    rw [List.getD_eq_getElem?_getD, List.getD_eq_getElem?_getD,
      List.getElem?_take, List.getElem?_drop]
    rw [if_pos (by omega)]
    rw [Nat.add_zero]
  · -- max: `sorted[count − threshold − 1]` is the window's last entry
    rw [hWlen]
    rw [List.getD_eq_getElem?_getD, List.getD_eq_getElem?_getD,
      List.getElem?_take, List.getElem?_drop]
    rw [if_pos (by omega)]
    have hidx : offsets.length / 10 +
        (offsets.length - 2 * (offsets.length / 10) - 1) =
        offsets.length - offsets.length / 10 - 1 := by omega
    rw [hidx]

/-- Witness for `C5_offset_stats` on ten concrete offsets. -/
theorem C5_offset_stats_witness :
    (10 : ℕ) ≤ ([5, 1, 9, 2, 8, 3, 7, 4, 6, 0] : List ℚ).length ∧
      ((offsetAnalysis [5, 1, 9, 2, 8, 3, 7, 4, 6, 0]).2.2.1 =
          (((sortF [5, 1, 9, 2, 8, 3, 7, 4, 6, 0]).drop
              (([5, 1, 9, 2, 8, 3, 7, 4, 6, 0] : List ℚ).length / 10)).take
            (([5, 1, 9, 2, 8, 3, 7, 4, 6, 0] : List ℚ).length -
              2 * (([5, 1, 9, 2, 8, 3, 7, 4, 6, 0] : List ℚ).length /
                10))).getD 0 0) :=
  ⟨by decide,
    (C5_offset_stats [5, 1, 9, 2, 8, 3, 7, 4, 6, 0] (by decide)).2.2.1⟩

end Kal
